import Mathlib

/-!
Shallow embedding of the SensorDataManager / MedianStrategy module
(`SensorDataManager.cpp`, `SensorDataManager.h`, `MedianStrategy.h`).

Buffers `std::deque<std::pair<int,int>>` are embedded as `List (Int × Int)`
with the list head playing the role of the deque front; `emplace_back`
is `++ [(t, v)]`, `pop_front` loops are `List.dropWhile`.  C++ `double`
intermediate arithmetic is embedded as exact rational arithmetic `ℚ`;
`static_cast<int>` on a `double` truncates toward zero, embedded as
`truncQ`.  C++ `int` division truncates toward zero, embedded as
`Int.tdiv`.  The mutex is irrelevant to the sequential claims and is
not modelled.
-/

/-- Truncation toward zero of a rational, the behaviour of
`static_cast<int>` applied to a `double` value. -/
def truncQ (q : ℚ) : Int := if q < 0 then ⌈q⌉ else ⌊q⌋

/-- The shared state of `SensorDataManager`: the two deques
`density_buffer` and `position_buffer`, each holding `{time_uS, value}`
pairs, front at the list head. -/
structure SensorDataManager where
  density_buffer : List (Int × Int)
  position_buffer : List (Int × Int)
deriving DecidableEq

/-- `static constexpr int WINDOW_US = 5'000'000;` -/
def WINDOW_US : Int := 5000000

/-- `SensorDataManager::trim_old_data`: pop from the front of each buffer
while the front's timestamp is `< now_us - WINDOW_US`. -/
def trim_old_data (now_us : Int) (s : SensorDataManager) : SensorDataManager :=
  { density_buffer := s.density_buffer.dropWhile (fun p => decide (p.1 < now_us - WINDOW_US)),
    position_buffer := s.position_buffer.dropWhile (fun p => decide (p.1 < now_us - WINDOW_US)) }

/-- `SensorDataManager::MeasureDensityReady`: trim both buffers with the
new timestamp as "now", then append `{time_uS, density}` at the back of
the density buffer. -/
def MeasureDensityReady (density time_uS : Int) (s : SensorDataManager) : SensorDataManager :=
  let s' := trim_old_data time_uS s
  { s' with density_buffer := s'.density_buffer ++ [(time_uS, density)] }

/-- `SensorDataManager::MeasurePositionReady`: trim both buffers with the
new timestamp as "now", then append `{time_uS, position_mm}` at the back
of the position buffer. -/
def MeasurePositionReady (position_mm time_uS : Int) (s : SensorDataManager) : SensorDataManager :=
  let s' := trim_old_data time_uS s
  { s' with position_buffer := s'.position_buffer ++ [(time_uS, position_mm)] }

/-- The sample `*(it - 1)` where `it = std::lower_bound(...)` with
comparator `a.first < t`: on a buffer sorted by timestamp this is the
last element whose timestamp is `< t`, i.e. the last element of the
maximal prefix of elements satisfying the comparator. -/
def posBefore (l : List (Int × Int)) (t : Int) : Int × Int :=
  (l.takeWhile (fun p => decide (p.1 < t))).getLastD (0, 0)

/-- The sample `*it` where `it = std::lower_bound(...)` with comparator
`a.first < t`: on a buffer sorted by timestamp this is the first element
whose timestamp is `≥ t`, i.e. the head of what remains after dropping
the maximal prefix of elements satisfying the comparator. -/
def posAfter (l : List (Int × Int)) (t : Int) : Int × Int :=
  (l.dropWhile (fun p => decide (p.1 < t))).headD (0, 0)

/-- The interior interpolation expression of `interpolate_position`
before the integer cast:
`before.second + ratio * (after.second - before.second)` with
`ratio = (time_us - before.first) / (after.first - before.first)`,
in exact rational arithmetic. -/
def segValQ (before after : Int × Int) (t : Int) : ℚ :=
  (before.2 : ℚ) + ((t : ℚ) - (before.1 : ℚ)) / ((after.1 : ℚ) - (before.1 : ℚ)) *
    ((after.2 : ℚ) - (before.2 : ℚ))

/-- The interior expression of `interpolate_position` including the
integer cast, written over `ℤ`:  over the common (positive) denominator
`d = after.first - before.first`, the exact value of
`before.second + ratio * (after.second - before.second)` is the rational
`(before.second * d + (time_us - before.first) * (after.second - before.second)) / d`,
and `static_cast<int>` truncates it toward zero, which for the positive
denominator `d` is `Int.tdiv` of the numerator by `d`.  The theorem
`segTrunc_eq_truncQ_segValQ` below proves this equal to the direct
rational rendering `truncQ (segValQ before after t)`. -/
def segTrunc (before after : Int × Int) (t : Int) : Int :=
  (before.2 * (after.1 - before.1) + (t - before.1) * (after.2 - before.2)).tdiv
    (after.1 - before.1)

/-- `SensorDataManager::interpolate_position`, as a function of the
position buffer: `-1` on an empty buffer; clamp to the front value when
`time_us <= front.first`; clamp to the back value when
`time_us >= back.first`; otherwise interpolate linearly between the
`lower_bound` bracketing pair and truncate the `double` result to `int`. -/
def interpolate_position (position_buffer : List (Int × Int)) (time_us : Int) : Int :=
  match position_buffer with
  | [] => -1
  | p :: rest =>
    let back := (p :: rest).getLastD (0, 0)
    if time_us ≤ p.1 then p.2
    else if back.1 ≤ time_us then back.2
    else segTrunc (posBefore (p :: rest) time_us) (posAfter (p :: rest) time_us) time_us

/-- The working set of `CalculateDensityValues`: the values of the density
samples whose interpolated position lies inside
`[min_pos_mm, max_pos_mm]` (the `relevant_densities` vector, in scan
order). -/
def relevantDensities (s : SensorDataManager) (min_pos_mm max_pos_mm : Int) : List Int :=
  (s.density_buffer.filter (fun p =>
    decide (min_pos_mm ≤ interpolate_position s.position_buffer p.1 ∧
      interpolate_position s.position_buffer p.1 ≤ max_pos_mm))).map (fun p => p.2)

/-- `SensorDataManager::CalculateDensityValues`: scan the density buffer,
keep the samples whose interpolated position falls in the inclusive
interval, and return the (unchanged) state together with
`(mean, min, median)`.  The all-zero triple is returned when no sample
qualifies; otherwise `mean = sum / count` in truncating `int` division,
`min` is the running minimum started at `INT_MAX`, and the median is the
element at index `count / 2` of the working set as placed by
`std::nth_element`, i.e. the element at index `count / 2` of the sorted
working set. -/
def CalculateDensityValues (min_pos_mm max_pos_mm : Int) (s : SensorDataManager) :
    SensorDataManager × Int × Int × Int :=
  let relevant := relevantDensities s min_pos_mm max_pos_mm
  let count := relevant.length
  if count = 0 then (s, 0, 0, 0)
  else
    let sum := relevant.foldl (· + ·) 0
    let min_val := relevant.foldl min 2147483647
    let median := (List.insertionSort (· ≤ ·) relevant).getD (count / 2) 0
    (s, sum.tdiv (count : Int), min_val, median)

/-- The enum `MedianAlgorithm` of `MedianStrategy.h`. -/
inductive MedianAlgorithm
  | NthElement
  | FullSort
  | HeapMedian
deriving DecidableEq

/-- `top()` of a `std::priority_queue<int>` (max-heap), embedded with the
heap contents as a multiset represented by a list: the maximum element
(`0` on the empty heap, which the algorithm never queries). -/
def pqMaxTop (l : List Int) : Int := l.foldl max (l.headD 0)

/-- `top()` of a `std::priority_queue<int, vector<int>, greater<int>>`
(min-heap), embedded as the minimum element of the content list. -/
def pqMinTop (l : List Int) : Int := l.foldl min (l.headD 0)

/-- One iteration of the `HeapMedian` loop of `MedianStrategy::compute`:
push `val` into `lower` if `lower` is empty or `val < lower.top()`,
otherwise into `upper`; then rebalance so the sizes differ by at most
one with `lower` never smaller than `upper`. -/
def heapStep (st : List Int × List Int) (val : Int) : List Int × List Int :=
  let lower := st.1
  let upper := st.2
  let pushed :=
    if lower = [] ∨ val < pqMaxTop lower then (val :: lower, upper) else (lower, val :: upper)
  let lower' := pushed.1
  let upper' := pushed.2
  if lower'.length > upper'.length + 1 then
    (lower'.erase (pqMaxTop lower'), pqMaxTop lower' :: upper')
  else if upper'.length > lower'.length then
    (pqMinTop upper' :: lower', upper'.erase (pqMinTop upper'))
  else (lower', upper')

/-- `MedianStrategy::compute`: `0` on the empty vector; `NthElement`
returns `data[n/2]` after `std::nth_element(begin, begin + n/2, end)`,
whose postcondition puts the element of rank `n/2` (0-based, of the
sorted order) there; `FullSort` returns `data[n/2]` after `std::sort`;
`HeapMedian` folds `heapStep` over the data and returns `lower.top()`. -/
def MedianStrategy.compute (data : List Int) (algorithm : MedianAlgorithm) : Int :=
  let n := data.length
  if n = 0 then 0
  else
    match algorithm with
    | .NthElement => (List.insertionSort (· ≤ ·) data).getD (n / 2) 0
    | .FullSort => (List.insertionSort (· ≤ ·) data).getD (n / 2) 0
    | .HeapMedian => pqMaxTop ((data.foldl heapStep ([], [])).1)

/-- Reference ordered search for the bracketing pair, following the
spec's words for the interior case of `interpolate_position`: walk the
time-sorted buffer keeping the previous sample as `before`
(timestamp `< query`), stop at the first sample `after` with timestamp
`≥ query`, and return
`before.value + ratio × (after.value − before.value)` with
`ratio = (query − before.timestamp) / (after.timestamp − before.timestamp)`
computed in real-valued arithmetic and truncated to integer. -/
def refSearch (before : Int × Int) (l : List (Int × Int)) (t : Int) : Int :=
  match l with
  | [] => before.2
  | q :: rest => if t ≤ q.1 then truncQ (segValQ before q t) else refSearch q rest t

/-- Reference piecewise definition of position interpolation, following
the spec's words: empty buffer → sentinel `-1`; `t ≤` earliest retained
timestamp → that sample's value; `t ≥` latest retained timestamp → that
sample's value; otherwise the interpolation formula over the adjacent
bracketing samples found by an ordered search. -/
def interpRef (l : List (Int × Int)) (t : Int) : Int :=
  match l with
  | [] => -1
  | p :: rest =>
    let back := (p :: rest).getLastD (0, 0)
    if t ≤ p.1 then p.2
    else if back.1 ≤ t then back.2
    else refSearch p rest t

/-- One recorded call of the ingestion interface: either
`MeasureDensityReady value time` or `MeasurePositionReady value time`. -/
inductive SensorOp
  | density (value time : Int)
  | position (value time : Int)
deriving DecidableEq

/-- The timestamp argument of an ingestion call. -/
def SensorOp.time : SensorOp → Int
  | .density _ t => t
  | .position _ t => t

/-- Execute one ingestion call against the state. -/
def applyOp (s : SensorDataManager) : SensorOp → SensorDataManager
  | .density v t => MeasureDensityReady v t s
  | .position v t => MeasurePositionReady v t s

/-- Run a sequence of ingestion calls starting from the empty manager. -/
def runOps (ops : List SensorOp) : SensorDataManager :=
  ops.foldl applyOp ⟨[], []⟩

/-- The timestamps of the density-stream calls, in call order. -/
def densityTimes (ops : List SensorOp) : List Int :=
  ops.filterMap fun op =>
    match op with
    | .density _ t => some t
    | .position _ _ => none

/-- The timestamps of the position-stream calls, in call order. -/
def positionTimes (ops : List SensorOp) : List Int :=
  ops.filterMap fun op =>
    match op with
    | .density _ _ => none
    | .position _ t => some t

/-- Per-stream monotonically non-decreasing timestamps, the caller
contract of the ingestion interface. -/
def perStreamMonotone (ops : List SensorOp) : Prop :=
  (densityTimes ops).Pairwise (· ≤ ·) ∧ (positionTimes ops).Pairwise (· ≤ ·)

/-- A buffer is sorted non-decreasing by timestamp. -/
def tsSorted (l : List (Int × Int)) : Prop :=
  l.Pairwise fun a b => a.1 ≤ b.1

/-- Buffer values are non-decreasing in buffer order. -/
def valsNondec (l : List (Int × Int)) : Prop :=
  l.Pairwise fun a b => a.2 ≤ b.2

/-- Buffer values are non-increasing in buffer order. -/
def valsNoninc (l : List (Int × Int)) : Prop :=
  l.Pairwise fun a b => b.2 ≤ a.2

/-- All timestamps of the buffer are bounded by every time in the list. -/
def BufBound (l : List (Int × Int)) (ts : List Int) : Prop :=
  ∀ p ∈ l, ∀ u ∈ ts, p.1 ≤ u

/-- Induction invariant for a run: both buffers are time-sorted, every
retained timestamp is at most every future same-stream call timestamp,
and the future per-stream call timestamps are monotone. -/
def TraceInv (s : SensorDataManager) (ops : List SensorOp) : Prop :=
  tsSorted s.density_buffer ∧ tsSorted s.position_buffer ∧
    BufBound s.density_buffer (densityTimes ops) ∧
    BufBound s.position_buffer (positionTimes ops) ∧
    (densityTimes ops).Pairwise (· ≤ ·) ∧ (positionTimes ops).Pairwise (· ≤ ·)

/-- A buffer value list with the values negated, timestamps kept. -/
def negVals (l : List (Int × Int)) : List (Int × Int) :=
  l.map fun p => (p.1, -p.2)

instance (l : List (Int × Int)) : Decidable (tsSorted l) := by
  unfold tsSorted
  infer_instance

instance (l : List (Int × Int)) : Decidable (valsNondec l) := by
  unfold valsNondec
  infer_instance

instance (l : List (Int × Int)) : Decidable (valsNoninc l) := by
  unfold valsNoninc
  infer_instance

instance (ops : List SensorOp) : Decidable (perStreamMonotone ops) := by
  unfold perStreamMonotone
  infer_instance

/-! ## Basic facts about truncation toward zero -/

theorem truncQ_intCast (n : ℤ) : truncQ (n : ℚ) = n := by
  unfold truncQ
  split
  · exact Int.ceil_intCast n
  · exact Int.floor_intCast n

theorem truncQ_mono {x y : ℚ} (h : x ≤ y) : truncQ x ≤ truncQ y := by
  unfold truncQ
  by_cases hx : x < 0
  · by_cases hy : y < 0
    · rw [if_pos hx, if_pos hy]
      exact Int.ceil_mono h
    · rw [if_pos hx, if_neg hy]
      calc ⌈x⌉ ≤ 0 := Int.ceil_le.mpr (by exact_mod_cast hx.le)
        _ ≤ ⌊y⌋ := Int.floor_nonneg.mpr (not_lt.mp hy)
  · have hy : ¬ y < 0 := fun hy => hx (lt_of_le_of_lt h hy)
    rw [if_neg hx, if_neg hy]
    exact Int.floor_mono h

theorem truncQ_div_eq_tdiv (N d : ℤ) (hd : 0 < d) :
    truncQ ((N : ℚ) / (d : ℚ)) = N.tdiv d := by
  have hdq : (0 : ℚ) < (d : ℚ) := by exact_mod_cast hd
  have htn : ((d.toNat : ℕ) : ℤ) = d := Int.toNat_of_nonneg hd.le
  have hcast : ((d : ℤ) : ℚ) = ((d.toNat : ℕ) : ℚ) := by exact_mod_cast htn.symm
  rcases le_or_lt 0 N with hN | hN
  · have hq : ¬ ((N : ℚ) / (d : ℚ) < 0) := by
      push_neg
      exact div_nonneg (by exact_mod_cast hN) hdq.le
    unfold truncQ
    rw [if_neg hq, hcast, Rat.floor_intCast_div_natCast, htn,
      Int.tdiv_eq_ediv hN hd.le]
  · have hq : (N : ℚ) / (d : ℚ) < 0 :=
      div_neg_of_neg_of_pos (by exact_mod_cast hN) hdq
    unfold truncQ
    rw [if_pos hq]
    have hceil : ⌈(N : ℚ) / (d : ℚ)⌉ = -⌊-((N : ℚ) / (d : ℚ))⌋ := by
      rw [Int.floor_neg, neg_neg]
    have hnegdiv : -((N : ℚ) / (d : ℚ)) = ((-N : ℤ) : ℚ) / ((d.toNat : ℕ) : ℚ) := by
      rw [← hcast]
      push_cast
      ring
    rw [hceil, hnegdiv, Rat.floor_intCast_div_natCast, htn,
      ← Int.tdiv_eq_ediv (by omega) hd.le, Int.neg_tdiv, neg_neg]

theorem segTrunc_eq_truncQ_segValQ (b a : Int × Int) (t : Int) (h : b.1 < a.1) :
    segTrunc b a t = truncQ (segValQ b a t) := by
  have hd : (0 : ℤ) < a.1 - b.1 := by omega
  have hne : ((a.1 : ℚ) - (b.1 : ℚ)) ≠ 0 := by
    have : (b.1 : ℚ) < (a.1 : ℚ) := by exact_mod_cast h
    exact sub_ne_zero.mpr (ne_of_gt this)
  have hQ : segValQ b a t =
      ((b.2 * (a.1 - b.1) + (t - b.1) * (a.2 - b.2) : ℤ) : ℚ) / ((a.1 - b.1 : ℤ) : ℚ) := by
    unfold segValQ
    push_cast
    field_simp
  rw [hQ, truncQ_div_eq_tdiv _ _ hd]
  rfl

theorem segTrunc_neg (b a : Int × Int) (t : Int) :
    segTrunc (b.1, -b.2) (a.1, -a.2) t = -segTrunc b a t := by
  unfold segTrunc
  have : (-b.2 * (a.1 - b.1) + (t - b.1) * (-a.2 - -b.2)) =
      -(b.2 * (a.1 - b.1) + (t - b.1) * (a.2 - b.2)) := by ring
  rw [this, Int.neg_tdiv]

/-! ## Trimming and the sliding-window invariant -/

theorem trim_mem_lb (c : Int) (l : List (Int × Int)) (hs : tsSorted l) :
    ∀ p ∈ l.dropWhile (fun q => decide (q.1 < c)), c ≤ p.1 := by
  induction l with
  | nil => intro p hp; simp [List.dropWhile] at hp
  | cons a l ih =>
    intro p hp
    rw [List.dropWhile_cons] at hp
    by_cases h : a.1 < c
    · rw [if_pos (by simpa using h)] at hp
      exact ih (List.Pairwise.of_cons hs) p hp
    · rw [if_neg (by simpa using h)] at hp
      rcases List.mem_cons.mp hp with rfl | hp'
      · exact not_lt.mp h
      · exact le_trans (not_lt.mp h) (List.rel_of_pairwise_cons hs hp')

theorem tsSorted_dropWhile (c : Int) (l : List (Int × Int)) (hs : tsSorted l) :
    tsSorted (l.dropWhile (fun q => decide (q.1 < c))) :=
  List.Pairwise.sublist (List.dropWhile_sublist _) hs

theorem mem_of_mem_dropWhile {α : Type} (p : α → Bool) (l : List α) {x : α}
    (hx : x ∈ l.dropWhile p) : x ∈ l :=
  (List.dropWhile_sublist p).subset hx

theorem WINDOW_US_nonneg : (0 : Int) ≤ WINDOW_US := by norm_num [WINDOW_US]

theorem applyOp_lb (s : SensorDataManager) (op : SensorOp)
    (hd : tsSorted s.density_buffer) (hp : tsSorted s.position_buffer) :
    (∀ p ∈ (applyOp s op).density_buffer, op.time - WINDOW_US ≤ p.1) ∧
    (∀ p ∈ (applyOp s op).position_buffer, op.time - WINDOW_US ≤ p.1) := by
  have hW := WINDOW_US_nonneg
  cases op with
  | density v t =>
    constructor
    · intro p hpmem
      simp only [applyOp, MeasureDensityReady, trim_old_data, SensorOp.time] at hpmem ⊢
      rcases List.mem_append.mp hpmem with h | h
      · exact trim_mem_lb (t - WINDOW_US) _ hd p h
      · simp only [List.mem_singleton] at h
        subst h
        simp only []
        omega
    · intro p hpmem
      simp only [applyOp, MeasureDensityReady, trim_old_data, SensorOp.time] at hpmem ⊢
      exact trim_mem_lb (t - WINDOW_US) _ hp p hpmem
  | position v t =>
    constructor
    · intro p hpmem
      simp only [applyOp, MeasurePositionReady, trim_old_data, SensorOp.time] at hpmem ⊢
      exact trim_mem_lb (t - WINDOW_US) _ hd p hpmem
    · intro p hpmem
      simp only [applyOp, MeasurePositionReady, trim_old_data, SensorOp.time] at hpmem ⊢
      rcases List.mem_append.mp hpmem with h | h
      · exact trim_mem_lb (t - WINDOW_US) _ hp p h
      · simp only [List.mem_singleton] at h
        subst h
        simp only []
        omega

theorem densityTimes_density_cons (v t : Int) (ops : List SensorOp) :
    densityTimes (SensorOp.density v t :: ops) = t :: densityTimes ops := rfl

theorem densityTimes_position_cons (v t : Int) (ops : List SensorOp) :
    densityTimes (SensorOp.position v t :: ops) = densityTimes ops := rfl

theorem positionTimes_density_cons (v t : Int) (ops : List SensorOp) :
    positionTimes (SensorOp.density v t :: ops) = positionTimes ops := rfl

theorem positionTimes_position_cons (v t : Int) (ops : List SensorOp) :
    positionTimes (SensorOp.position v t :: ops) = t :: positionTimes ops := rfl

theorem traceInv_step (s : SensorDataManager) (op : SensorOp) (ops : List SensorOp)
    (h : TraceInv s (op :: ops)) : TraceInv (applyOp s op) ops := by
  obtain ⟨hsd, hsp, hbd, hbp, hmd, hmp⟩ := h
  cases op with
  | density v t =>
    rw [densityTimes_density_cons] at hbd hmd
    rw [positionTimes_density_cons] at hbp hmp
    have ht_future : ∀ u ∈ densityTimes ops, t ≤ u := fun u hu =>
      List.rel_of_pairwise_cons hmd hu
    refine ⟨?_, ?_, ?_, ?_, hmd.of_cons, hmp⟩
    · simp only [applyOp, MeasureDensityReady, trim_old_data]
      unfold tsSorted
      rw [List.pairwise_append]
      refine ⟨tsSorted_dropWhile _ _ hsd, List.pairwise_singleton _ _, ?_⟩
      intro a ha b hb
      simp only [List.mem_singleton] at hb
      subst hb
      exact hbd a (mem_of_mem_dropWhile _ _ ha) t (List.mem_cons_self _ _)
    · simp only [applyOp, MeasureDensityReady, trim_old_data]
      exact tsSorted_dropWhile _ _ hsp
    · intro p hpmem u hu
      simp only [applyOp, MeasureDensityReady, trim_old_data] at hpmem
      rcases List.mem_append.mp hpmem with hmem | hmem
      · exact hbd p (mem_of_mem_dropWhile _ _ hmem) u (List.mem_cons_of_mem _ hu)
      · simp only [List.mem_singleton] at hmem
        subst hmem
        exact ht_future u hu
    · intro p hpmem u hu
      simp only [applyOp, MeasureDensityReady, trim_old_data] at hpmem
      exact hbp p (mem_of_mem_dropWhile _ _ hpmem) u hu
  | position v t =>
    rw [densityTimes_position_cons] at hbd hmd
    rw [positionTimes_position_cons] at hbp hmp
    have ht_future : ∀ u ∈ positionTimes ops, t ≤ u := fun u hu =>
      List.rel_of_pairwise_cons hmp hu
    refine ⟨?_, ?_, ?_, ?_, hmd, hmp.of_cons⟩
    · simp only [applyOp, MeasurePositionReady, trim_old_data]
      exact tsSorted_dropWhile _ _ hsd
    · simp only [applyOp, MeasurePositionReady, trim_old_data]
      unfold tsSorted
      rw [List.pairwise_append]
      refine ⟨tsSorted_dropWhile _ _ hsp, List.pairwise_singleton _ _, ?_⟩
      intro a ha b hb
      simp only [List.mem_singleton] at hb
      subst hb
      exact hbp a (mem_of_mem_dropWhile _ _ ha) t (List.mem_cons_self _ _)
    · intro p hpmem u hu
      simp only [applyOp, MeasurePositionReady, trim_old_data] at hpmem
      exact hbd p (mem_of_mem_dropWhile _ _ hpmem) u hu
    · intro p hpmem u hu
      simp only [applyOp, MeasurePositionReady, trim_old_data] at hpmem
      rcases List.mem_append.mp hpmem with hmem | hmem
      · exact hbp p (mem_of_mem_dropWhile _ _ hmem) u (List.mem_cons_of_mem _ hu)
      · simp only [List.mem_singleton] at hmem
        subst hmem
        exact ht_future u hu

theorem run_lb (ops : List SensorOp) :
    ∀ (s : SensorDataManager) (op : SensorOp), TraceInv s (ops ++ [op]) →
      (∀ p ∈ (List.foldl applyOp s (ops ++ [op])).density_buffer,
        op.time - WINDOW_US ≤ p.1) ∧
      (∀ p ∈ (List.foldl applyOp s (ops ++ [op])).position_buffer,
        op.time - WINDOW_US ≤ p.1) := by
  induction ops with
  | nil =>
    intro s op h
    obtain ⟨hsd, hsp, _, _, _, _⟩ := h
    simpa using applyOp_lb s op hsd hsp
  | cons o ops ih =>
    intro s op h
    have hstep : TraceInv (applyOp s o) (ops ++ [op]) := traceInv_step s o (ops ++ [op]) h
    simpa using ih (applyOp s o) op hstep

/-! ## The lower_bound bracketing pair versus the ordered reference search -/

theorem getLastD_default_irrel {α : Type} (b : α) (l : List α) (d d' : α) :
    (b :: l).getLastD d = (b :: l).getLastD d' := by
  rw [List.getLastD_cons, List.getLastD_cons]

theorem exists_after_of_lt_back (p : Int × Int) (rest : List (Int × Int)) (t : Int)
    (h1 : p.1 < t) (h2 : t < (((p :: rest).getLastD (0, 0)).1)) :
    ∃ q ∈ rest, t ≤ q.1 := by
  cases rest with
  | nil =>
    rw [List.getLastD_cons, List.getLastD_nil] at h2
    omega
  | cons b rest' =>
    rw [List.getLastD_cons, List.getLastD_cons] at h2
    exact ⟨List.getLastD rest' b, List.getLastD_mem_cons rest' b, le_of_lt h2⟩

theorem span_eq_refSearch (l : List (Int × Int)) :
    ∀ (p : Int × Int) (t : Int), tsSorted (p :: l) → p.1 < t → (∃ q ∈ l, t ≤ q.1) →
      segTrunc (posBefore (p :: l) t) (posAfter (p :: l) t) t = refSearch p l t := by
  induction l with
  | nil =>
    rintro p t _ _ ⟨q, hq, _⟩
    exact absurd hq (List.not_mem_nil q)
  | cons q rest ih =>
    intro p t hs hp hex
    by_cases ht : t ≤ q.1
    · have hbefore : posBefore (p :: q :: rest) t = p := by
        unfold posBefore
        rw [List.takeWhile_cons, if_pos (by simpa using hp),
          List.takeWhile_cons, if_neg (by simpa using not_lt.mpr ht)]
        rfl
      have hafter : posAfter (p :: q :: rest) t = q := by
        unfold posAfter
        rw [List.dropWhile_cons, if_pos (by simpa using hp),
          List.dropWhile_cons, if_neg (by simpa using not_lt.mpr ht)]
        rfl
      rw [hbefore, hafter]
      unfold refSearch
      rw [if_pos ht]
      exact segTrunc_eq_truncQ_segValQ p q t (lt_of_lt_of_le hp ht)
    · push_neg at ht
      have hex' : ∃ r ∈ rest, t ≤ r.1 := by
        rcases hex with ⟨x, hx, hxt⟩
        rcases List.mem_cons.mp hx with rfl | hx'
        · omega
        · exact ⟨x, hx', hxt⟩
      have hbefore : posBefore (p :: q :: rest) t = posBefore (q :: rest) t := by
        unfold posBefore
        rw [List.takeWhile_cons (l := q :: rest), if_pos (by simpa using hp),
          List.takeWhile_cons (l := rest), if_pos (by simpa using ht)]
        simp only [List.getLastD_cons]
      have hafter : posAfter (p :: q :: rest) t = posAfter (q :: rest) t := by
        unfold posAfter
        rw [List.dropWhile_cons, if_pos (by simpa using hp)]
      rw [hbefore, hafter]
      unfold refSearch
      rw [if_neg (not_le.mpr ht)]
      exact ih q t hs.of_cons ht hex'

theorem interpolate_interior (p : Int × Int) (rest : List (Int × Int)) (t : Int)
    (h1 : p.1 < t) (h2 : t < (((p :: rest).getLastD (0, 0)).1)) :
    interpolate_position (p :: rest) t =
      segTrunc (posBefore (p :: rest) t) (posAfter (p :: rest) t) t := by
  simp only [interpolate_position]
  rw [if_neg (not_le.mpr h1), if_neg (not_le.mpr h2)]

theorem interpolate_interior_refSearch (p : Int × Int) (rest : List (Int × Int)) (t : Int)
    (hs : tsSorted (p :: rest)) (h1 : p.1 < t)
    (h2 : t < (((p :: rest).getLastD (0, 0)).1)) :
    interpolate_position (p :: rest) t = refSearch p rest t := by
  rw [interpolate_interior p rest t h1 h2]
  exact span_eq_refSearch rest p t hs h1 (exists_after_of_lt_back p rest t h1 h2)

/-! ## Inequalities for one interpolation segment -/

theorem segValQ_mono_t (b a : Int × Int) (t t' : Int) (hba : b.1 < a.1) (h : t ≤ t')
    (hv : b.2 ≤ a.2) : segValQ b a t ≤ segValQ b a t' := by
  have hd : (0 : ℚ) < (a.1 : ℚ) - (b.1 : ℚ) := by
    have : (b.1 : ℚ) < (a.1 : ℚ) := by exact_mod_cast hba
    linarith
  have key : segValQ b a t' - segValQ b a t =
      ((t' : ℚ) - (t : ℚ)) / ((a.1 : ℚ) - (b.1 : ℚ)) * ((a.2 : ℚ) - (b.2 : ℚ)) := by
    unfold segValQ
    field_simp
    ring
  have h0 : (0 : ℚ) ≤ ((t' : ℚ) - (t : ℚ)) / ((a.1 : ℚ) - (b.1 : ℚ)) *
      ((a.2 : ℚ) - (b.2 : ℚ)) := by
    apply mul_nonneg
    · apply div_nonneg _ hd.le
      have : (t : ℚ) ≤ (t' : ℚ) := by exact_mod_cast h
      linarith
    · have : (b.2 : ℚ) ≤ (a.2 : ℚ) := by exact_mod_cast hv
      linarith
  linarith [key, h0]

theorem left_le_segValQ (b a : Int × Int) (t : Int) (hbt : b.1 ≤ t) (hba : b.1 < a.1)
    (hv : b.2 ≤ a.2) : (b.2 : ℚ) ≤ segValQ b a t := by
  have hd : (0 : ℚ) < (a.1 : ℚ) - (b.1 : ℚ) := by
    have : (b.1 : ℚ) < (a.1 : ℚ) := by exact_mod_cast hba
    linarith
  have key : segValQ b a t - (b.2 : ℚ) =
      ((t : ℚ) - (b.1 : ℚ)) / ((a.1 : ℚ) - (b.1 : ℚ)) * ((a.2 : ℚ) - (b.2 : ℚ)) := by
    unfold segValQ
    ring
  have h0 : (0 : ℚ) ≤ ((t : ℚ) - (b.1 : ℚ)) / ((a.1 : ℚ) - (b.1 : ℚ)) *
      ((a.2 : ℚ) - (b.2 : ℚ)) := by
    apply mul_nonneg
    · apply div_nonneg _ hd.le
      have : (b.1 : ℚ) ≤ (t : ℚ) := by exact_mod_cast hbt
      linarith
    · have : (b.2 : ℚ) ≤ (a.2 : ℚ) := by exact_mod_cast hv
      linarith
  linarith [key, h0]

theorem segValQ_le_right (b a : Int × Int) (t : Int) (hta : t ≤ a.1) (hba : b.1 < a.1)
    (hv : b.2 ≤ a.2) : segValQ b a t ≤ (a.2 : ℚ) := by
  have hd : (0 : ℚ) < (a.1 : ℚ) - (b.1 : ℚ) := by
    have : (b.1 : ℚ) < (a.1 : ℚ) := by exact_mod_cast hba
    linarith
  have key : (a.2 : ℚ) - segValQ b a t =
      (1 - ((t : ℚ) - (b.1 : ℚ)) / ((a.1 : ℚ) - (b.1 : ℚ))) * ((a.2 : ℚ) - (b.2 : ℚ)) := by
    unfold segValQ
    field_simp
    ring
  have hratio : ((t : ℚ) - (b.1 : ℚ)) / ((a.1 : ℚ) - (b.1 : ℚ)) ≤ 1 := by
    rw [div_le_one hd]
    have : (t : ℚ) ≤ (a.1 : ℚ) := by exact_mod_cast hta
    linarith
  have h0 : (0 : ℚ) ≤ (1 - ((t : ℚ) - (b.1 : ℚ)) / ((a.1 : ℚ) - (b.1 : ℚ))) *
      ((a.2 : ℚ) - (b.2 : ℚ)) := by
    apply mul_nonneg
    · linarith
    · have : (b.2 : ℚ) ≤ (a.2 : ℚ) := by exact_mod_cast hv
      linarith
  linarith [key, h0]

/-! ## Bounds and monotonicity of the ordered reference search -/

theorem val_le_getLastD : ∀ (l : List (Int × Int)) (q : Int × Int),
    valsNondec (q :: l) → q.2 ≤ (List.getLastD l q).2
  | [], q, _ => le_refl _
  | r :: l', q, hv => by
    rw [List.getLastD_cons]
    have h1 : q.2 ≤ r.2 := List.rel_of_pairwise_cons hv (List.mem_cons_self r l')
    exact le_trans h1 (val_le_getLastD l' r hv.of_cons)

theorem le_refSearch : ∀ (l : List (Int × Int)) (p : Int × Int) (t : Int),
    tsSorted (p :: l) → valsNondec (p :: l) → p.1 < t → p.2 ≤ refSearch p l t
  | [], _, _, _, _, _ => le_refl _
  | q :: rest, p, t, hs, hv, hp => by
    unfold refSearch
    by_cases ht : t ≤ q.1
    · rw [if_pos ht]
      have hpq : p.1 < q.1 := lt_of_lt_of_le hp ht
      have hvpq : p.2 ≤ q.2 := List.rel_of_pairwise_cons hv (List.mem_cons_self q rest)
      have hseg : ((p.2 : Int) : ℚ) ≤ segValQ p q t := left_le_segValQ p q t hp.le hpq hvpq
      calc p.2 = truncQ ((p.2 : Int) : ℚ) := (truncQ_intCast p.2).symm
        _ ≤ truncQ (segValQ p q t) := truncQ_mono hseg
    · rw [if_neg ht]
      push_neg at ht
      have h1 : p.2 ≤ q.2 := List.rel_of_pairwise_cons hv (List.mem_cons_self q rest)
      exact le_trans h1 (le_refSearch rest q t hs.of_cons hv.of_cons ht)

theorem refSearch_le : ∀ (l : List (Int × Int)) (p : Int × Int) (t : Int),
    tsSorted (p :: l) → valsNondec (p :: l) → p.1 < t →
      refSearch p l t ≤ (List.getLastD l p).2
  | [], _, _, _, _, _ => le_refl _
  | q :: rest, p, t, hs, hv, hp => by
    rw [List.getLastD_cons]
    unfold refSearch
    by_cases ht : t ≤ q.1
    · rw [if_pos ht]
      have hpq : p.1 < q.1 := lt_of_lt_of_le hp ht
      have hvpq : p.2 ≤ q.2 := List.rel_of_pairwise_cons hv (List.mem_cons_self q rest)
      have hseg : segValQ p q t ≤ ((q.2 : Int) : ℚ) := segValQ_le_right p q t ht hpq hvpq
      have h1 : truncQ (segValQ p q t) ≤ q.2 := by
        calc truncQ (segValQ p q t) ≤ truncQ ((q.2 : Int) : ℚ) := truncQ_mono hseg
          _ = q.2 := truncQ_intCast q.2
      exact le_trans h1 (val_le_getLastD rest q hv.of_cons)
    · rw [if_neg ht]
      push_neg at ht
      exact refSearch_le rest q t hs.of_cons hv.of_cons ht

theorem refSearch_mono : ∀ (l : List (Int × Int)) (p : Int × Int) (t t' : Int),
    tsSorted (p :: l) → valsNondec (p :: l) → p.1 < t → t ≤ t' →
      refSearch p l t ≤ refSearch p l t'
  | [], _, _, _, _, _, _, _ => le_refl _
  | q :: rest, p, t, t', hs, hv, hpt, htt => by
    unfold refSearch
    by_cases ht : t ≤ q.1
    · by_cases ht' : t' ≤ q.1
      · rw [if_pos ht, if_pos ht']
        exact truncQ_mono (segValQ_mono_t p q t t' (lt_of_lt_of_le hpt ht) htt
          (List.rel_of_pairwise_cons hv (List.mem_cons_self q rest)))
      · rw [if_pos ht, if_neg ht']
        push_neg at ht'
        have hpq : p.1 < q.1 := lt_of_lt_of_le hpt ht
        have hvpq : p.2 ≤ q.2 := List.rel_of_pairwise_cons hv (List.mem_cons_self q rest)
        have hupper : truncQ (segValQ p q t) ≤ q.2 := by
          calc truncQ (segValQ p q t) ≤ truncQ ((q.2 : Int) : ℚ) :=
              truncQ_mono (segValQ_le_right p q t ht hpq hvpq)
            _ = q.2 := truncQ_intCast q.2
        exact le_trans hupper (le_refSearch rest q t' hs.of_cons hv.of_cons ht')
    · push_neg at ht
      rw [if_neg (not_le.mpr ht), if_neg (not_le.mpr (lt_of_lt_of_le ht htt))]
      exact refSearch_mono rest q t t' hs.of_cons hv.of_cons ht htt

/-! ## Monotonicity of interpolation in the query timestamp -/

theorem interp_mono_nondec (p : Int × Int) (rest : List (Int × Int)) (t t' : Int)
    (hs : tsSorted (p :: rest)) (hv : valsNondec (p :: rest)) (htt : t ≤ t') :
    interpolate_position (p :: rest) t ≤ interpolate_position (p :: rest) t' := by
  have hback : (p :: rest).getLastD (0, 0) = List.getLastD rest p :=
    List.getLastD_cons _ _ _
  have hpb : p.2 ≤ (List.getLastD rest p).2 := val_le_getLastD rest p hv
  simp only [interpolate_position, List.getLastD_cons]
  by_cases h1 : t ≤ p.1
  · rw [if_pos h1]
    by_cases h1' : t' ≤ p.1
    · rw [if_pos h1']
    · rw [if_neg h1']
      push_neg at h1'
      by_cases h2' : (List.getLastD rest p).1 ≤ t'
      · rw [if_pos h2']
        exact hpb
      · rw [if_neg h2']
        push_neg at h2'
        rw [span_eq_refSearch rest p t' hs h1'
          (exists_after_of_lt_back p rest t' h1' (by rw [hback]; exact h2'))]
        exact le_refSearch rest p t' hs hv h1'
  · push_neg at h1
    have h1' : ¬ (t' ≤ p.1) := not_le.mpr (lt_of_lt_of_le h1 htt)
    rw [if_neg (not_le.mpr h1), if_neg h1']
    by_cases h2 : (List.getLastD rest p).1 ≤ t
    · rw [if_pos h2, if_pos (le_trans h2 htt)]
    · rw [if_neg h2]
      push_neg at h2
      rw [span_eq_refSearch rest p t hs h1
        (exists_after_of_lt_back p rest t h1 (by rw [hback]; exact h2))]
      by_cases h2' : (List.getLastD rest p).1 ≤ t'
      · rw [if_pos h2']
        exact refSearch_le rest p t hs hv h1
      · rw [if_neg h2']
        push_neg at h2'
        rw [span_eq_refSearch rest p t' hs (lt_of_lt_of_le h1 htt)
          (exists_after_of_lt_back p rest t' (lt_of_lt_of_le h1 htt) (by rw [hback]; exact h2'))]
        exact refSearch_mono rest p t t' hs hv h1 htt

theorem getLastD_map_pair (f : Int × Int → Int × Int) (l : List (Int × Int))
    (hf : f (0, 0) = (0, 0)) : (l.map f).getLastD (0, 0) = f (l.getLastD (0, 0)) := by
  have h := List.getLastD_map f l (0, 0)
  rw [hf] at h
  exact h

theorem headD_map_pair (f : Int × Int → Int × Int) (l : List (Int × Int))
    (hf : f (0, 0) = (0, 0)) : (l.map f).headD (0, 0) = f (l.headD (0, 0)) := by
  have h := List.headD_map f l (0, 0)
  rw [hf] at h
  exact h

theorem posBefore_negVals (l : List (Int × Int)) (t : Int) :
    posBefore (negVals l) t = ((posBefore l t).1, -(posBefore l t).2) := by
  unfold posBefore negVals
  rw [List.takeWhile_map]
  exact getLastD_map_pair _ _ (by norm_num)

theorem posAfter_negVals (l : List (Int × Int)) (t : Int) :
    posAfter (negVals l) t = ((posAfter l t).1, -(posAfter l t).2) := by
  unfold posAfter negVals
  rw [List.dropWhile_map]
  exact headD_map_pair _ _ (by norm_num)

theorem interp_negVals (p : Int × Int) (rest : List (Int × Int)) (t : Int) :
    interpolate_position (negVals (p :: rest)) t = - interpolate_position (p :: rest) t := by
  have hcons : negVals (p :: rest) = (p.1, -p.2) :: negVals rest := rfl
  have hback : ((p.1, -p.2) :: negVals rest).getLastD (0, 0) =
      ((((p :: rest).getLastD (0, 0)).1), -(((p :: rest).getLastD (0, 0)).2)) := by
    rw [← hcons]
    unfold negVals
    exact getLastD_map_pair _ _ (by norm_num)
  rw [hcons]
  simp only [interpolate_position]
  rw [hback]
  by_cases h1 : t ≤ p.1
  · rw [if_pos h1, if_pos h1]
  · rw [if_neg h1, if_neg h1]
    by_cases h2 : (((p :: rest).getLastD (0, 0)).1) ≤ t
    · rw [if_pos h2, if_pos h2]
    · rw [if_neg h2, if_neg h2]
      rw [← hcons, posBefore_negVals, posAfter_negVals]
      exact segTrunc_neg _ _ t

theorem negVals_tsSorted (l : List (Int × Int)) (h : tsSorted l) : tsSorted (negVals l) := by
  unfold tsSorted negVals at *
  exact List.pairwise_map.mpr h

theorem negVals_valsNondec (l : List (Int × Int)) (h : valsNoninc l) :
    valsNondec (negVals l) := by
  unfold valsNondec valsNoninc negVals at *
  refine List.pairwise_map.mpr (h.imp ?_)
  intro a b hab
  simpa using hab

theorem interp_mono_noninc (p : Int × Int) (rest : List (Int × Int)) (t t' : Int)
    (hs : tsSorted (p :: rest)) (hv : valsNoninc (p :: rest)) (htt : t ≤ t') :
    interpolate_position (p :: rest) t' ≤ interpolate_position (p :: rest) t := by
  have hs' : tsSorted ((p.1, -p.2) :: negVals rest) := negVals_tsSorted _ hs
  have hv' : valsNondec ((p.1, -p.2) :: negVals rest) := negVals_valsNondec _ hv
  have hmono := interp_mono_nondec (p.1, -p.2) (negVals rest) t t' hs' hv' htt
  have e1 := interp_negVals p rest t
  have e2 := interp_negVals p rest t'
  have hcons : negVals (p :: rest) = (p.1, -p.2) :: negVals rest := rfl
  rw [hcons] at e1 e2
  rw [e1, e2] at hmono
  omega

/-! ## Remaining facts feeding the claims -/

theorem dropWhile_headD_not : ∀ (l : List (Int × Int)) (p : Int × Int → Bool),
    l.dropWhile p ≠ [] → p ((l.dropWhile p).headD (0, 0)) = false
  | [], _, h => absurd rfl h
  | a :: l, p, h => by
    rw [List.dropWhile_cons] at h ⊢
    by_cases hpa : p a = true
    · rw [if_pos hpa] at h ⊢
      exact dropWhile_headD_not l p h
    · rw [if_neg hpa] at h ⊢
      simp only [List.headD_cons]
      exact Bool.eq_false_iff.mpr hpa

/-! ## The claims -/

/-- C1: after inserting densities (10,t=0), (20,t=1000), (30,t=2000) and
positions (0mm,t=0), (100mm,t=2000), the query over [0,50] yields
mean 15 and min 10 as the spec's scenario expects, but median 20: the
code takes the element at index `count / 2` of the (partially) sorted
two-element working set {10, 20}, the upper middle, while the scenario
and `MedianStrategy.h`'s own doc comment promise the lower middle 10. -/
theorem c1_scenario_eval :
    (CalculateDensityValues 0 50
      (MeasurePositionReady 100 2000 (MeasurePositionReady 0 0
        (MeasureDensityReady 30 2000 (MeasureDensityReady 20 1000
          (MeasureDensityReady 10 0 ⟨[], []⟩)))))).2 = (15, 10, 20) := by decide

/-- C2: on the even-length input [10, 20], the NthElement and FullSort
variants of `MedianStrategy::compute` return 20 (the element at sorted
index n/2, the upper middle) while HeapMedian returns 10 (the top of the
lower heap, the lower middle): the three variants do not agree, and two
of them contradict the documented lower-middle convention. -/
theorem c2_median_disagreement :
    MedianStrategy.compute [10, 20] MedianAlgorithm.NthElement = 20 ∧
    MedianStrategy.compute [10, 20] MedianAlgorithm.FullSort = 20 ∧
    MedianStrategy.compute [10, 20] MedianAlgorithm.HeapMedian = 10 := by decide

/-- C3: with an empty position buffer, `interpolate_position` returns the
sentinel -1, and `CalculateDensityValues` compares that sentinel
numerically against the query interval with no exclusion: for the
interval [-5, 5], which contains -1, a recorded density sample (value 7
at t=0) is included and the query returns (7, 7, 7) instead of the
claimed (0, 0, 0). -/
theorem c3_sentinel_matches :
    interpolate_position ([] : List (Int × Int)) 0 = -1 ∧
    (CalculateDensityValues (-5) 5 ⟨[((0 : Int), (7 : Int))], []⟩).2 = (7, 7, 7) := by decide

/-- C4: for every call sequence with per-stream monotonically
non-decreasing timestamps, immediately after the final call with
timestamp `T = op.time`, every sample retained in either buffer has
timestamp at least `T - WINDOW_US`: each insert trims both buffers,
dropping head samples with timestamp `< T - WINDOW_US`, before
appending. -/
theorem c4_window_invariant (ops : List SensorOp) (op : SensorOp)
    (hmono : perStreamMonotone (ops ++ [op])) :
    ∀ p, (p ∈ (runOps (ops ++ [op])).density_buffer ∨
        p ∈ (runOps (ops ++ [op])).position_buffer) →
      op.time - WINDOW_US ≤ p.1 := by
  obtain ⟨hd, hp⟩ := hmono
  have hinv : TraceInv ⟨[], []⟩ (ops ++ [op]) := by
    refine ⟨List.Pairwise.nil, List.Pairwise.nil, ?_, ?_, hd, hp⟩
    · intro p hp'
      exact absurd hp' (List.not_mem_nil p)
    · intro p hp'
      exact absurd hp' (List.not_mem_nil p)
  have hrun := run_lb ops ⟨[], []⟩ op hinv
  intro p hmem
  rcases hmem with h | h
  · exact hrun.1 p h
  · exact hrun.2 p h

theorem c4_window_invariant_witness :
    (SensorOp.position 7 1000).time - WINDOW_US ≤ ((0 : Int), (10 : Int)).1 :=
  c4_window_invariant [SensorOp.density 10 0] (SensorOp.position 7 1000)
    (by decide) ((0 : Int), (10 : Int)) (by decide)

/-- C5: on every position buffer sorted non-decreasing by timestamp,
`interpolate_position` coincides with the reference piecewise definition
`interpRef` built from the spec's words: sentinel -1 on the empty
buffer, clamp to the earliest value at or before the earliest timestamp,
clamp to the latest value at or after the latest timestamp, and
otherwise the truncated real-valued interpolation between the adjacent
bracketing samples found by an ordered search. -/
theorem c5_interpolate_matches_ref (l : List (Int × Int)) (hs : tsSorted l) (t : Int) :
    interpolate_position l t = interpRef l t := by
  cases l with
  | nil => rfl
  | cons p rest =>
    simp only [interpolate_position, interpRef]
    by_cases h1 : t ≤ p.1
    · rw [if_pos h1, if_pos h1]
    · rw [if_neg h1, if_neg h1]
      by_cases h2 : (((p :: rest).getLastD (0, 0)).1) ≤ t
      · rw [if_pos h2, if_pos h2]
      · rw [if_neg h2, if_neg h2]
        push_neg at h1 h2
        exact span_eq_refSearch rest p t hs h1 (exists_after_of_lt_back p rest t h1 h2)

theorem c5_interpolate_matches_ref_witness :
    interpolate_position [((0 : Int), (0 : Int)), ((2000 : Int), (100 : Int))] 1000 =
      interpRef [((0 : Int), (0 : Int)), ((2000 : Int), (100 : Int))] 1000 ∧
    interpolate_position [((0 : Int), (0 : Int)), ((2000 : Int), (100 : Int))] 1000 = 50 :=
  ⟨c5_interpolate_matches_ref _ (by decide) 1000, by decide⟩

/-- C6: on a position buffer sorted non-decreasing by timestamp whose
values are monotone (all non-decreasing or all non-increasing), for
timestamps `t1 < t2 < t3` inside the retained range, the interpolated
value at `t2` lies between the interpolated values at `t1` and `t3`
inclusive. -/
theorem c6_interpolate_monotone (l : List (Int × Int)) (hne : l ≠ [])
    (hs : tsSorted l) (hv : valsNondec l ∨ valsNoninc l) (t1 t2 t3 : Int)
    (h12 : t1 < t2) (h23 : t2 < t3)
    (hlo : (l.headD (0, 0)).1 ≤ t1) (hhi : t3 ≤ (l.getLastD (0, 0)).1) :
    min (interpolate_position l t1) (interpolate_position l t3) ≤
        interpolate_position l t2 ∧
      interpolate_position l t2 ≤
        max (interpolate_position l t1) (interpolate_position l t3) := by
  cases l with
  | nil => exact absurd rfl hne
  | cons p rest =>
    rcases hv with hv | hv
    · have a1 := interp_mono_nondec p rest t1 t2 hs hv h12.le
      have a2 := interp_mono_nondec p rest t2 t3 hs hv h23.le
      exact ⟨le_trans (min_le_left _ _) a1, le_trans a2 (le_max_right _ _)⟩
    · have a1 := interp_mono_noninc p rest t1 t2 hs hv h12.le
      have a2 := interp_mono_noninc p rest t2 t3 hs hv h23.le
      exact ⟨le_trans (min_le_right _ _) a2, le_trans a1 (le_max_left _ _)⟩

theorem c6_interpolate_monotone_witness :
    min (interpolate_position [((0 : Int), (0 : Int)), ((2000 : Int), (100 : Int))] 500)
        (interpolate_position [((0 : Int), (0 : Int)), ((2000 : Int), (100 : Int))] 1500) ≤
      interpolate_position [((0 : Int), (0 : Int)), ((2000 : Int), (100 : Int))] 1000 ∧
    interpolate_position [((0 : Int), (0 : Int)), ((2000 : Int), (100 : Int))] 1000 ≤
      max (interpolate_position [((0 : Int), (0 : Int)), ((2000 : Int), (100 : Int))] 500)
        (interpolate_position [((0 : Int), (0 : Int)), ((2000 : Int), (100 : Int))] 1500) :=
  c6_interpolate_monotone [((0 : Int), (0 : Int)), ((2000 : Int), (100 : Int))]
    (by decide) (by decide) (Or.inl (by decide)) 500 1000 1500
    (by decide) (by decide) (by decide) (by decide)

/-- C7: on a position buffer sorted non-decreasing by timestamp
(duplicate timestamps allowed), whenever the interior branch of
`interpolate_position` is reached (the query lies strictly between the
front and back timestamps), the `lower_bound` prefix and suffix are both
non-empty, the bracketing pair satisfies `before.1 < t ≤ after.1` and so
`before.1 < after.1`: the division and the two dereferences are safe and
the call returns a value. -/
theorem c7_no_division_by_zero (l : List (Int × Int)) (hs : tsSorted l) (t : Int)
    (hne : l ≠ []) (h1 : (l.headD (0, 0)).1 < t) (h2 : t < (l.getLastD (0, 0)).1) :
    l.takeWhile (fun q => decide (q.1 < t)) ≠ [] ∧
    l.dropWhile (fun q => decide (q.1 < t)) ≠ [] ∧
    (posBefore l t).1 < t ∧ t ≤ (posAfter l t).1 ∧ (posBefore l t).1 < (posAfter l t).1 := by
  cases l with
  | nil => exact absurd rfl hne
  | cons p rest =>
    rw [List.headD_cons] at h1
    have htake : (p :: rest).takeWhile (fun q => decide (q.1 < t)) ≠ [] := by
      rw [List.takeWhile_cons, if_pos (by simpa using h1)]
      simp
    have hdrop : (p :: rest).dropWhile (fun q => decide (q.1 < t)) ≠ [] := by
      intro hnil
      have hall := List.dropWhile_eq_nil_iff.mp hnil
      have hback : List.getLastD rest p ∈ p :: rest := List.getLastD_mem_cons rest p
      have := hall _ hback
      rw [List.getLastD_cons] at h2
      simp only [decide_eq_true_eq] at this
      omega
    have hbefore : (posBefore (p :: rest) t).1 < t := by
      unfold posBefore
      obtain ⟨x, xs, hxs⟩ := List.exists_cons_of_ne_nil htake
      rw [hxs, List.getLastD_cons]
      have hmem : List.getLastD xs x ∈ x :: xs := List.getLastD_mem_cons xs x
      rw [← hxs] at hmem
      have := List.mem_takeWhile_imp hmem
      simpa using this
    have hafter : t ≤ (posAfter (p :: rest) t).1 := by
      unfold posAfter
      have := dropWhile_headD_not (p :: rest) (fun q => decide (q.1 < t)) hdrop
      simp only [decide_eq_false_iff_not, not_lt] at this
      exact this
    exact ⟨htake, hdrop, hbefore, hafter, lt_of_lt_of_le hbefore hafter⟩

theorem c7_no_division_by_zero_witness :
    [((0 : Int), (0 : Int)), ((5 : Int), (7 : Int)),
        ((2000 : Int), (100 : Int))].takeWhile (fun q => decide (q.1 < 1000)) ≠ [] ∧
    [((0 : Int), (0 : Int)), ((5 : Int), (7 : Int)),
        ((2000 : Int), (100 : Int))].dropWhile (fun q => decide (q.1 < 1000)) ≠ [] ∧
    (posBefore [((0 : Int), (0 : Int)), ((5 : Int), (7 : Int)),
        ((2000 : Int), (100 : Int))] 1000).1 < 1000 ∧
    (1000 : Int) ≤ (posAfter [((0 : Int), (0 : Int)), ((5 : Int), (7 : Int)),
        ((2000 : Int), (100 : Int))] 1000).1 ∧
    (posBefore [((0 : Int), (0 : Int)), ((5 : Int), (7 : Int)),
        ((2000 : Int), (100 : Int))] 1000).1 <
      (posAfter [((0 : Int), (0 : Int)), ((5 : Int), (7 : Int)),
        ((2000 : Int), (100 : Int))] 1000).1 :=
  c7_no_division_by_zero
    [((0 : Int), (0 : Int)), ((5 : Int), (7 : Int)), ((2000 : Int), (100 : Int))]
    (by decide) 1000 (by decide) (by decide) (by decide)

/-- C8: `CalculateDensityValues` is idempotent: it leaves the state
unchanged, so a second call with the same interval and no intervening
inserts writes the identical (mean, min, median) triple. -/
theorem c8_query_idempotent (s : SensorDataManager) (a b : Int) :
    (CalculateDensityValues a b ((CalculateDensityValues a b s).1)).2 =
      (CalculateDensityValues a b s).2 := by
  have hstate : (CalculateDensityValues a b s).1 = s := by
    simp only [CalculateDensityValues]
    split <;> rfl
  rw [hstate]

/-- C9: when no density sample qualifies the query writes the all-zero
triple, and otherwise the mean is the truncating integer division of the
working-set sum by its count. -/
theorem c9_empty_and_mean (s : SensorDataManager) (a b : Int) :
    (relevantDensities s a b = [] → (CalculateDensityValues a b s).2 = (0, 0, 0)) ∧
    (relevantDensities s a b ≠ [] →
      (CalculateDensityValues a b s).2.1 =
        ((relevantDensities s a b).foldl (· + ·) 0).tdiv
          (((relevantDensities s a b).length : Int))) := by
  constructor
  · intro h
    simp only [CalculateDensityValues]
    rw [if_pos (by rw [h]; rfl)]
  · intro h
    simp only [CalculateDensityValues]
    rw [if_neg (by simpa using h)]

theorem c9_empty_and_mean_witness :
    (CalculateDensityValues 0 50 ⟨[], []⟩).2 = (0, 0, 0) ∧
    (CalculateDensityValues (-5) 5
      ⟨[((0 : Int), (7 : Int)), ((0 : Int), (9 : Int))], []⟩).2.1 = 8 := by
  constructor
  · exact (c9_empty_and_mean ⟨[], []⟩ 0 50).1 rfl
  · have h := (c9_empty_and_mean
      ⟨[((0 : Int), (7 : Int)), ((0 : Int), (9 : Int))], []⟩ (-5) 5).2 (by decide)
    rw [h]
    decide

/-- C10: `CalculateDensityValues` never modifies the shared state: both
the density buffer and the position buffer are unchanged by the call. -/
theorem c10_query_frame (s : SensorDataManager) (a b : Int) :
    (CalculateDensityValues a b s).1.density_buffer = s.density_buffer ∧
    (CalculateDensityValues a b s).1.position_buffer = s.position_buffer := by
  simp only [CalculateDensityValues]
  split <;> exact ⟨rfl, rfl⟩
